import Mathlib

/-!
Verification of the FinanceBot browser client's thread-scoped session/state
orchestration layer: file-selection reconciliation, per-thread upload state,
result upserts, chat routing, 404 recovery, and thread lifecycle handling.
The definitions below are shallow embeddings of the TypeScript source
(`frontend/src/App.tsx`, the single-page `App` variant, and `Sidebar`).
-/

namespace FinanceBot

/-! ## Generic keyed-map layer

JavaScript `Map.set` / object-spread `{...prev, [k]: v}` semantics over an
ordered association list: setting an existing key replaces the value in
place (keeping the original position), setting a fresh key appends it. -/

section KeyedMap

variable {α : Type} {κ : Type} [DecidableEq κ]

/-- JS `Map.prototype.set` / `{...prev, [k]: v}`: replace in place when the
key exists, append otherwise. -/
def mapSet (m : List (κ × α)) (k : κ) (v : α) : List (κ × α) :=
  if m.any (fun p => decide (p.1 = k)) then
    m.map (fun p => if p.1 = k then (k, v) else p)
  else m ++ [(k, v)]

/-- JS `map.get(k)` / `obj[k]` lookup. -/
def recordGet (m : List (κ × α)) (k : κ) : Option α :=
  (m.find? (fun p => decide (p.1 = k))).map (fun p => p.2)

variable (key : α → κ)

/-- `forEach`-style insertion of a batch of values keyed by `key`, as in
`incoming.forEach((f) => byKey.set(keyOf(f), f))`. -/
def insertAll (m : List (κ × α)) (l : List α) : List (κ × α) :=
  l.foldl (fun m' x => mapSet m' (key x) x) m

/-- The merge pattern shared by `handleFileChange` and the results upsert in
`handleUpload`: build a fresh `Map`, insert the previous entries, insert the
incoming entries, and take `Array.from(map.values())`. -/
def mergeByKey (prev incoming : List α) : List α :=
  (insertAll key (insertAll key [] prev) incoming).map Prod.snd

/-- The value the map ends up holding for key `k` after inserting `l`:
the last element of `l` whose key is `k`, if any. -/
def lastVal (l : List α) (k : κ) : Option α :=
  match l with
  | [] => none
  | x :: xs =>
    match lastVal xs k with
    | some y => some y
    | none => if key x = k then some x else none

/-- The tail a batch insertion appends to the map: the values of the keys of
`l` that are not already in `ks`, in first-occurrence order, each carrying
the last value seen for its key. -/
def freshPart (ks : List κ) : List α → List α
  | [] => []
  | x :: xs =>
    if key x ∈ ks then freshPart ks xs
    else ((lastVal key xs (key x)).getD x) :: freshPart (ks ++ [key x]) xs


end KeyedMap

/-! ## Data model (frontend/src/App.tsx interfaces) -/

/-- A browser `File` object. `name`, `size` and `lastModified` form the
dedupe identity key used by `handleFileChange`; `blob` stands for the file's
byte content, which is not part of the key. -/
structure FileRef where
  name : String
  size : Nat
  lastModified : Nat
  blob : String
deriving DecidableEq, Repr

/-- The template-string key in `handleFileChange`:
the name/size/lastModified triple. (Since `size` and `lastModified` render as
digit strings, the string key of the source is injective in this triple.) -/
def fileKey (f : FileRef) : String × Nat × Nat :=
  (f.name, f.size, f.lastModified)

/-- The merge performed inside `handleFileChange` (App.tsx lines 84-97):
previous files and then the incoming selection are inserted into a fresh
`Map` keyed by `fileKey`; the merged list is the map's values. -/
def mergeFiles (prev incoming : List FileRef) : List FileRef :=
  mergeByKey fileKey prev incoming

/-- `removeFileAt` (App.tsx lines 101-114): `prev.files.filter((_, i) => i !== index)`. -/
def removeFileAt (files : List FileRef) (index : Nat) : List FileRef :=
  ((files.enum).filter (fun p => decide (p.1 ≠ index))).map Prod.snd

/-- `summary` field of `AnalysisResult`. -/
structure AnalysisSummary where
  key_insights : List String
deriving DecidableEq, Repr

/-- `interface AnalysisResult` (App.tsx lines 8-17). `risk_score` is modelled
as an integer; none of the verified operations computes with it. -/
structure AnalysisResult where
  document_id : String
  filename : String
  document_type : String
  summary : AnalysisSummary
  risk_score : Int
  recommendations : List String
deriving DecidableEq, Repr

/-- The results upsert inside `handleUpload` (App.tsx lines 141-147):
existing results and then the response batch are inserted into a fresh `Map`
keyed by `document_id`; the merged list is the map's values. -/
def upsertResults (prev list : List AnalysisResult) : List AnalysisResult :=
  mergeByKey AnalysisResult.document_id prev list

/-- `interface Thread` (App.tsx lines 19-26). -/
structure Thread where
  id : Int
  thread_id : String
  title : String
  created_at : String
  updated_at : String
  message_count : Int
deriving DecidableEq, Repr

/-- `role` of a `Message`. -/
inductive Role where
  | user
  | assistant
deriving DecidableEq, Repr

/-- `interface Message` (App.tsx lines 28-33). -/
structure Message where
  id : String
  role : Role
  content : String
  timestamp : String
deriving DecidableEq, Repr

/-- `type ThreadViewMode = 'upload' | 'chat'` (App.tsx line 35). -/
inductive ThreadViewMode where
  | upload
  | chat
deriving DecidableEq, Repr

/-- `interface ThreadUploadState` (App.tsx lines 37-43). `result` is the
"primary" result. -/
structure ThreadUploadState where
  files : List FileRef
  loading : Bool
  error : String
  results : List AnalysisResult
  result : Option AnalysisResult
deriving DecidableEq, Repr

/-- `getDefaultUploadState` (App.tsx lines 56-62). -/
def getDefaultUploadState : ThreadUploadState :=
  { files := [], loading := false, error := "", results := [], result := none }

/-- The React component state of `App` (App.tsx lines 47-52). The two
`Record<string, _>` maps are ordered association lists with JS object-spread
update semantics (`mapSet`). -/
structure AppState where
  threadUploads : List (String × ThreadUploadState)
  threadView : List (String × ThreadViewMode)
  threads : List Thread
  currentThreadId : Option String
  messages : List Message
deriving DecidableEq, Repr

/-- JS `a || b` for a possibly-absent string: an absent or empty string is
falsy and falls through to the fallback. -/
def jsOrString (a : Option String) (dflt : String) : String :=
  match a with
  | none => dflt
  | some s => if s = "" then dflt else s

/-- The HTTP requests the client can issue (§6 of the spec). An upload's
`thread_id` is optional because the single-page variant sends none. -/
inductive ApiCall where
  | uploadMultiple (files : List FileRef) (thread_id : Option String)
  | chatSingle (document_id : String) (question : String)
  | chatMulti (document_ids : List String) (question : String)
  | getThreads
  | getThreadMessages (thread_id : String)
  | getThreadDocuments (thread_id : String)
  | deleteThread (thread_id : String)
  | createThread
deriving DecidableEq, Repr

/-! ## Per-thread upload state operations (App.tsx) -/

/-- `getCurrentUploadState` applied to an explicit thread id:
`threadUploads[threadId] || getDefaultUploadState()`. -/
def bucket (s : AppState) (tid : String) : ThreadUploadState :=
  (recordGet s.threadUploads tid).getD getDefaultUploadState

/-- The body of `setCurrentUploadState` (App.tsx lines 69-75) for a fixed
thread id: `{...prev, [tid]: updater(prev[tid] || default)}`. An async
continuation of `handleUpload` calls this with the thread id captured in its
closure at submit time, regardless of the active thread at resolution time. -/
def setUploadStateFor (tid : String) (upd : ThreadUploadState → ThreadUploadState)
    (s : AppState) : AppState :=
  { s with threadUploads := mapSet s.threadUploads tid (upd (bucket s tid)) }

/-- `setCurrentUploadState` (App.tsx lines 69-75): no-op without an active
thread, otherwise updates the active thread's bucket. -/
def setCurrentUploadState (upd : ThreadUploadState → ThreadUploadState)
    (s : AppState) : AppState :=
  match s.currentThreadId with
  | none => s
  | some tid => setUploadStateFor tid upd s

/-- The local validation message of `handleUpload` (App.tsx line 120). -/
def uploadValidationError : String :=
  "Please select a file (.pdf, .docx, .csv, .xlsx)"

/-- The synchronous part of `handleUpload` (App.tsx lines 116-130): bail out
without a thread; with an empty file list set the local validation error and
make no network call; otherwise set `loading`, clear `error`, and issue the
upload tagged with the captured thread id. -/
def handleUploadSubmit (s : AppState) : AppState × Option ApiCall :=
  match s.currentThreadId with
  | none => (s, none)
  | some tid =>
    let files := (bucket s tid).files
    if files.length = 0 then
      (setUploadStateFor tid (fun prev => { prev with error := uploadValidationError }) s,
        none)
    else
      (setUploadStateFor tid
          (fun prev => { prev with loading := true, error := "" }) s,
        some (ApiCall.uploadMultiple files (some tid)))

/-- The `then` continuation of `handleUpload` (App.tsx lines 138-147 and the
`finally` at 153-155), run against the state at response time with the thread
id captured at submit time: upsert the response batch into the thread's
results, set the primary to the first element of the response batch, then
clear `loading`. -/
def handleUploadSuccess (tid : String) (respResults : List AnalysisResult)
    (s : AppState) : AppState :=
  let s1 := setUploadStateFor tid
    (fun prev =>
      { prev with results := upsertResults prev.results respResults,
                  result := respResults.head? }) s
  setUploadStateFor tid (fun prev => { prev with loading := false }) s1

/-- The `catch` continuation of `handleUpload` (App.tsx lines 150-155):
set `error` from `error.response?.data?.detail || 'Upload failed'`, then the
`finally` clears `loading`. -/
def handleUploadFailure (tid : String) (detail : Option String)
    (s : AppState) : AppState :=
  let s1 := setUploadStateFor tid
    (fun prev => { prev with error := jsOrString detail "Upload failed" }) s
  setUploadStateFor tid (fun prev => { prev with loading := false }) s1

/-- `handleFileChange` (App.tsx lines 77-99): ignored without an active
thread or with an empty selection; otherwise the merged file list replaces
the bucket's files and the error is cleared. -/
def handleFileChange (incoming : List FileRef) (s : AppState) : AppState :=
  match s.currentThreadId with
  | none => s
  | some _ =>
    if incoming.length = 0 then s
    else
      setCurrentUploadState
        (fun prev => { prev with files := mergeFiles prev.files incoming, error := "" }) s

/-! ## Thread lifecycle (App.tsx and Sidebar) -/

/-- `loadThreads` success continuation (App.tsx lines 222-231):
`setThreads(response.data.threads || [])`. -/
def loadThreadsSuccess (serverThreads : List Thread) (s : AppState) : AppState :=
  { s with threads := serverThreads }

/-- `loadThreadMessages` success continuation (App.tsx lines 233-242). -/
def loadThreadMessagesSuccess (msgs : List Message) (s : AppState) : AppState :=
  { s with messages := msgs }

/-- The inner `summary.summary` object of a raw thread document. -/
structure RawSummaryInner where
  key_insights : Option (List String)
deriving DecidableEq, Repr

/-- The `summary` object of a raw thread document. -/
structure RawSummary where
  summary : Option RawSummaryInner
  document_type : Option String
  risk_score : Option Int
  recommendations : Option (List String)
deriving DecidableEq, Repr

/-- A document as returned by `GET /threads/{id}/documents`, with the fields
`loadThreadDocuments` reads (App.tsx lines 163-177). -/
structure RawDoc where
  document_id : String
  filename : String
  document_type : Option String
  risk_score : Option Int
  summary : Option RawSummary
deriving DecidableEq, Repr

/-- The per-document mapping in `loadThreadDocuments` (App.tsx lines 164-177):
`summaryObj = d.summary || {}`, `innerSummary = summaryObj.summary || {}`,
string fallbacks via `||` (empty strings are falsy), numeric fallbacks via `??`. -/
def mapDoc (d : RawDoc) : AnalysisResult :=
  { document_id := d.document_id
    filename := d.filename
    document_type :=
      jsOrString (d.summary.bind RawSummary.document_type)
        (jsOrString d.document_type "unknown")
    summary :=
      { key_insights :=
          ((d.summary.bind RawSummary.summary).bind RawSummaryInner.key_insights).getD [] }
    risk_score :=
      ((d.summary.bind RawSummary.risk_score).getD (d.risk_score.getD 0))
    recommendations := (d.summary.bind RawSummary.recommendations).getD [] }

/-- `loadThreadDocuments` success continuation (App.tsx lines 178-185):
replace the thread's `results` wholesale with the mapped documents and set
the primary to `mapped[0] || null`; `files`, `loading` and `error` of the
bucket are kept. -/
def loadThreadDocumentsSuccess (tid : String) (docs : List RawDoc)
    (s : AppState) : AppState :=
  let mapped := docs.map mapDoc
  { s with
      threadUploads := mapSet s.threadUploads tid
        { bucket s tid with results := mapped, result := mapped.head? } }

/-- `handleThreadSelect` (App.tsx lines 244-255): set the current thread,
ensure its upload bucket exists, reset its view mode to `upload`, and fire
the transcript and document fetches. -/
def handleThreadSelect (tid : String) (s : AppState) : AppState × List ApiCall :=
  ({ s with
      currentThreadId := some tid,
      threadUploads := mapSet s.threadUploads tid (bucket s tid),
      threadView := mapSet s.threadView tid ThreadViewMode.upload },
    [ApiCall.getThreadMessages tid, ApiCall.getThreadDocuments tid])

/-- `handleNewThread` (App.tsx lines 257-262). -/
def handleNewThread (tid : String) (s : AppState) : AppState :=
  { s with
      currentThreadId := some tid,
      messages := [],
      threadUploads := mapSet s.threadUploads tid getDefaultUploadState,
      threadView := mapSet s.threadView tid ThreadViewMode.upload }

/-- `Sidebar.handleDeleteThread` after the user confirms (Sidebar lines
253-271): issue the DELETE, then `onThreadsUpdate` = `loadThreads` replaces
the cached list with the server's. Nothing else in the client state is
touched. -/
def handleDeleteThreadConfirmed (tid : String) (serverThreads : List Thread)
    (s : AppState) : List ApiCall × AppState :=
  ([ApiCall.deleteThread tid, ApiCall.getThreads],
    loadThreadsSuccess serverThreads s)

/-! ## The single-page `App` variant: `handleChat` routing and recovery -/

/-- The component state of the single-page `App` variant (its `useState`
hooks). -/
structure ChatState where
  files : List FileRef
  loading : Bool
  result : Option AnalysisResult
  results : List AnalysisResult
  error : String
  chatQuestion : String
  chatAnswer : String
  chatLoading : Bool
deriving DecidableEq, Repr

/-- The requests issued by the `try` block of `handleChat` (single-page App,
lines 105-136). The guard returns without any request when the question is
empty or nothing is known at all. With `results.length <= 1 && result`, a
single-document `/chat` request carries the primary's id. Otherwise the
known ids go to `/chat-multi`; if no ids are known but files are selected,
an upload is issued first and its response ids (`uploadResults`) are pushed
into the id list before the `/chat-multi` request. -/
def handleChatRequests (cs : ChatState) (uploadResults : List AnalysisResult) :
    List ApiCall :=
  if cs.chatQuestion = ""
      ∨ (cs.results.length = 0 ∧ cs.result = none ∧ cs.files.length = 0) then
    []
  else if h : cs.results.length ≤ 1 ∧ cs.result.isSome = true then
    [ApiCall.chatSingle (cs.result.get h.2).document_id cs.chatQuestion]
  else
    let ids := cs.results.map AnalysisResult.document_id
    if ids.length = 0 ∧ 0 < cs.files.length then
      [ApiCall.uploadMultiple cs.files none,
        ApiCall.chatMulti (ids ++ uploadResults.map AnalysisResult.document_id)
          cs.chatQuestion]
    else
      [ApiCall.chatMulti ids cs.chatQuestion]

/-- The `catch` block of `handleChat` (single-page App, lines 138-163) plus
the `finally`. A 404 with local files still selected triggers one silent
re-upload (`reupload` is its outcome) and, if the re-upload succeeds, one
retried `/chat-multi` with the fresh ids and the same `chatQuestion`
(`retry` is its outcome); any failure inside this recovery surfaces as a
`Chat failed:` answer with no further attempt. Any other error surfaces
immediately. -/
def handleChatOnError (cs : ChatState) (status : Option Nat)
    (detail : Option String)
    (reupload : Except (Option String) (List AnalysisResult))
    (retry : Except (Option String) String) : List ApiCall × ChatState :=
  if status = some 404 ∧ 0 < cs.files.length then
    match reupload with
    | Except.error d =>
      ([ApiCall.uploadMultiple cs.files none],
        { cs with chatAnswer := "Chat failed: " ++ jsOrString d "Unknown error",
                  chatLoading := false })
    | Except.ok list =>
      let ids := list.map AnalysisResult.document_id
      match retry with
      | Except.ok ans =>
        ([ApiCall.uploadMultiple cs.files none,
            ApiCall.chatMulti ids cs.chatQuestion],
          { cs with results := list, chatAnswer := ans, chatLoading := false })
      | Except.error d =>
        ([ApiCall.uploadMultiple cs.files none,
            ApiCall.chatMulti ids cs.chatQuestion],
          { cs with results := list,
                    chatAnswer := "Chat failed: " ++ jsOrString d "Unknown error",
                    chatLoading := false })
  else
    ([], { cs with chatAnswer := "Chat failed: " ++ jsOrString detail "Unknown error",
                   chatLoading := false })

/-- Number of `/upload-multiple` calls in a request trace. -/
def countUploadCalls (l : List ApiCall) : Nat :=
  l.countP (fun c => match c with
    | ApiCall.uploadMultiple _ _ => true
    | _ => false)

/-- Number of chat calls (`/chat` or `/chat-multi`) in a request trace. -/
def countChatCalls (l : List ApiCall) : Nat :=
  l.countP (fun c => match c with
    | ApiCall.chatSingle _ _ => true
    | ApiCall.chatMulti _ _ => true
    | _ => false)


/-! ## Generic keyed-map lemmas -/

section KeyedMapLemmas

variable {α : Type} {κ : Type} [DecidableEq κ]

variable (key : α → κ)

theorem lastVal_getD_cons (x : α) (xs : List α) (k : κ) (d : α) :
    (lastVal key (x :: xs) k).getD d
      = (lastVal key xs k).getD (if key x = k then x else d) := by
  simp only [lastVal]
  cases h : lastVal key xs k with
  | none =>
    by_cases hk : key x = k <;> simp [hk]
  | some y => simp

theorem lastVal_cons_of_ne (x : α) (xs : List α) (k : κ) (h : key x ≠ k) :
    lastVal key (x :: xs) k = lastVal key xs k := by
  simp only [lastVal]
  cases hx : lastVal key xs k with
  | none => simp [h]
  | some y => rfl

theorem key_of_lastVal (l : List α) (k : κ) (y : α)
    (h : lastVal key l k = some y) : key y = k := by
  induction l with
  | nil => simp [lastVal] at h
  | cons x xs ih =>
    simp only [lastVal] at h
    cases hx : lastVal key xs k with
    | some z =>
      rw [hx] at h
      exact ih (hx.trans (by injection h with h'; rw [h']))
    | none =>
      rw [hx] at h
      by_cases hk : key x = k
      · simp [hk] at h
        rw [← h]; exact hk
      · simp [hk] at h

theorem lastVal_eq_none (l : List α) (k : κ) (h : k ∉ l.map key) :
    lastVal key l k = none := by
  induction l with
  | nil => rfl
  | cons x xs ih =>
    simp only [List.map_cons, List.mem_cons] at h
    push_neg at h
    simp only [lastVal, ih h.2]
    have : ¬ key x = k := fun hc => h.1 hc.symm
    simp [this]

theorem mapSet_of_mem (m : List (κ × α)) (k : κ) (v : α)
    (h : k ∈ m.map Prod.fst) :
    mapSet m k v = m.map (fun p => if p.1 = k then (k, v) else p) := by
  have : m.any (fun p => decide (p.1 = k)) = true := by
    simp only [List.any_eq_true, decide_eq_true_eq]
    obtain ⟨p, hp, hpk⟩ := List.mem_map.mp h
    exact ⟨p, hp, hpk⟩
  simp [mapSet, this]

theorem mapSet_of_not_mem (m : List (κ × α)) (k : κ) (v : α)
    (h : k ∉ m.map Prod.fst) :
    mapSet m k v = m ++ [(k, v)] := by
  have : m.any (fun p => decide (p.1 = k)) = false := by
    simp only [List.any_eq_false, decide_eq_true_eq]
    intro p hp hpk
    exact h (List.mem_map.mpr ⟨p, hp, hpk⟩)
  simp [mapSet, this]

theorem mapSet_keys_of_mem (m : List (κ × α)) (k : κ) (v : α)
    (h : k ∈ m.map Prod.fst) :
    (mapSet m k v).map Prod.fst = m.map Prod.fst := by
  rw [mapSet_of_mem m k v h, List.map_map]
  apply List.map_congr_left
  intro p _
  by_cases hp : p.1 = k <;> simp [hp]

theorem mapSet_keys_of_not_mem (m : List (κ × α)) (k : κ) (v : α)
    (h : k ∉ m.map Prod.fst) :
    (mapSet m k v).map Prod.fst = m.map Prod.fst ++ [k] := by
  rw [mapSet_of_not_mem m k v h]; simp

theorem insertAll_nil (m : List (κ × α)) : insertAll key m [] = m := rfl

theorem insertAll_cons (m : List (κ × α)) (x : α) (xs : List α) :
    insertAll key m (x :: xs) = insertAll key (mapSet m (key x) x) xs := rfl

/-- Closed form of a batch `Map.set` insertion: entries already in the map
keep their position and get the last incoming value for their key (if any);
genuinely new keys are appended at the end in first-occurrence order. -/
theorem insertAll_closed (l : List α) (m : List (κ × α)) :
    insertAll key m l
      = m.map (fun p => (p.1, (lastVal key l p.1).getD p.2))
        ++ (freshPart key (m.map Prod.fst) l).map (fun x => (key x, x)) := by
  induction l generalizing m with
  | nil =>
    simp [insertAll_nil, lastVal, freshPart]
  | cons x xs ih =>
    rw [insertAll_cons, ih]
    by_cases h : key x ∈ m.map Prod.fst
    · rw [mapSet_keys_of_mem _ _ _ h, mapSet_of_mem _ _ _ h, List.map_map]
      have hfresh : freshPart key (m.map Prod.fst) (x :: xs)
          = freshPart key (m.map Prod.fst) xs := by
        simp only [freshPart, if_pos h]
      rw [hfresh]
      congr 1
      apply List.map_congr_left
      intro p _
      by_cases hp : p.1 = key x
      · simp only [Function.comp_apply, if_pos hp]
        rw [hp, lastVal_getD_cons, if_pos rfl]
      · simp only [Function.comp_apply, if_neg hp]
        rw [lastVal_cons_of_ne key x xs p.1 (fun hc => hp hc.symm)]
    · rw [mapSet_keys_of_not_mem _ _ _ h, mapSet_of_not_mem _ _ _ h]
      have hfresh : freshPart key (m.map Prod.fst) (x :: xs)
          = ((lastVal key xs (key x)).getD x)
              :: freshPart key (m.map Prod.fst ++ [key x]) xs := by
        simp only [freshPart, if_neg h]
      rw [hfresh]
      simp only [List.map_append, List.map_cons, List.map_nil, List.append_assoc]
      congr 1
      · apply List.map_congr_left
        intro p hp
        have hne : key x ≠ p.1 := by
          intro hc
          exact h (hc ▸ List.mem_map.mpr ⟨p, hp, rfl⟩)
        rw [lastVal_cons_of_ne key x xs p.1 hne]
      · have hk : key ((lastVal key xs (key x)).getD x) = key x := by
          cases hv : lastVal key xs (key x) with
          | none => simp
          | some y => simpa using key_of_lastVal key xs (key x) y hv
        simp [hk]

theorem freshPart_eq_nil (ks : List κ) (l : List α)
    (h : ∀ x ∈ l, key x ∈ ks) : freshPart key ks l = [] := by
  induction l with
  | nil => rfl
  | cons x xs ih =>
    simp only [freshPart, if_pos (h x (List.mem_cons_self x xs))]
    exact ih (fun y hy => h y (List.mem_cons_of_mem x hy))

theorem freshPart_eq_self (ks : List κ) (l : List α)
    (hdisj : ∀ x ∈ l, key x ∉ ks) (hnd : (l.map key).Nodup) :
    freshPart key ks l = l := by
  induction l generalizing ks with
  | nil => rfl
  | cons x xs ih =>
    simp only [List.map_cons, List.nodup_cons] at hnd
    have hx : key x ∉ ks := hdisj x (List.mem_cons_self x xs)
    have hlast : lastVal key xs (key x) = none :=
      lastVal_eq_none key xs (key x) hnd.1
    simp only [freshPart, if_neg hx, hlast, Option.getD_none]
    congr 1
    apply ih
    · intro y hy
      simp only [List.mem_append, List.mem_singleton]
      rintro (hks | hkx)
      · exact hdisj y (List.mem_cons_of_mem x hy) hks
      · exact hnd.1 (hkx ▸ List.mem_map.mpr ⟨y, hy, rfl⟩)
    · exact hnd.2

theorem lastVal_of_mem_freshPart (ks : List κ) (l : List α) (v : α)
    (h : v ∈ freshPart key ks l) : lastVal key l (key v) = some v := by
  induction l generalizing ks with
  | nil => simp [freshPart] at h
  | cons x xs ih =>
    by_cases hx : key x ∈ ks
    · simp only [freshPart, if_pos hx] at h
      have := ih ks h
      simp only [lastVal, this]
    · simp only [freshPart, if_neg hx, List.mem_cons] at h
      rcases h with hv | hv
      · cases hlv : lastVal key xs (key x) with
        | none =>
          rw [hlv] at hv
          simp only [Option.getD_none] at hv
          subst hv
          simp only [lastVal, hlv]
          simp
        | some y =>
          rw [hlv] at hv
          simp only [Option.getD_some] at hv
          subst hv
          have hk : key v = key x := key_of_lastVal key xs (key x) v hlv
          simp only [lastVal, hk, hlv]
      · have := ih (ks ++ [key x]) hv
        simp only [lastVal, this]

theorem mem_mapSet (m : List (κ × α)) (k : κ) (v : α) (p : κ × α)
    (h : p ∈ mapSet m k v) : p ∈ m ∨ p = (k, v) := by
  by_cases hk : k ∈ m.map Prod.fst
  · rw [mapSet_of_mem _ _ _ hk] at h
    obtain ⟨q, hq, hpq⟩ := List.mem_map.mp h
    by_cases hq1 : q.1 = k
    · right; rw [← hpq]; simp [hq1]
    · left; rw [← hpq]; simp [hq1]; exact hq
  · rw [mapSet_of_not_mem _ _ _ hk] at h
    simpa using h

theorem insertAll_coherent (m : List (κ × α)) (l : List α)
    (hm : ∀ p ∈ m, p.1 = key p.2) :
    ∀ p ∈ insertAll key m l, p.1 = key p.2 := by
  induction l generalizing m with
  | nil => simpa [insertAll_nil] using hm
  | cons x xs ih =>
    rw [insertAll_cons]
    apply ih
    intro p hp
    rcases mem_mapSet m (key x) x p hp with hpm | hpe
    · exact hm p hpm
    · rw [hpe]

theorem insertAll_keys (m : List (κ × α)) (l : List α) :
    (insertAll key m l).map Prod.fst
      = m.map Prod.fst ++ (freshPart key (m.map Prod.fst) l).map key := by
  rw [insertAll_closed, List.map_append, List.map_map, List.map_map]
  rfl

theorem insertAll_keys_nodup (m : List (κ × α)) (l : List α)
    (hm : (m.map Prod.fst).Nodup) :
    ((insertAll key m l).map Prod.fst).Nodup := by
  induction l generalizing m with
  | nil => simpa [insertAll_nil] using hm
  | cons x xs ih =>
    rw [insertAll_cons]
    apply ih
    by_cases hk : key x ∈ m.map Prod.fst
    · rwa [mapSet_keys_of_mem _ _ _ hk]
    · rw [mapSet_keys_of_not_mem _ _ _ hk]
      simp [List.nodup_append, hm, hk]

theorem key_mem_ks_or_freshPart (ks : List κ) (l : List α) :
    ∀ x ∈ l, key x ∈ ks ∨ key x ∈ (freshPart key ks l).map key := by
  induction l generalizing ks with
  | nil => simp
  | cons y ys ih =>
    intro x hx
    by_cases hy : key y ∈ ks
    · simp only [freshPart, if_pos hy]
      rcases List.mem_cons.mp hx with hxy | hxs
      · left; rw [hxy]; exact hy
      · exact ih ks x hxs
    · simp only [freshPart, if_neg hy, List.map_cons]
      have hkhead : key ((lastVal key ys (key y)).getD y) = key y := by
        cases hv : lastVal key ys (key y) with
        | none => simp
        | some z => simpa using key_of_lastVal key ys (key y) z hv
      rcases List.mem_cons.mp hx with hxy | hxs
      · right; rw [hxy]; simp [hkhead]
      · rcases ih (ks ++ [key y]) x hxs with hks | hfresh
        · rcases List.mem_append.mp hks with hks' | hkeq
          · left; exact hks'
          · right
            simp only [List.mem_singleton] at hkeq
            simp [hkeq, hkhead]
        · right; exact List.mem_cons_of_mem _ hfresh

theorem key_mem_insertAll_keys (m : List (κ × α)) (l : List α) :
    ∀ x ∈ l, key x ∈ (insertAll key m l).map Prod.fst := by
  intro x hx
  rw [insertAll_keys]
  rcases key_mem_ks_or_freshPart key (m.map Prod.fst) l x hx with h | h
  · exact List.mem_append.mpr (Or.inl h)
  · exact List.mem_append.mpr (Or.inr h)

theorem insertAll_rebuild (l : List α) (hnd : (l.map key).Nodup) :
    insertAll key [] l = l.map (fun x => (key x, x)) := by
  rw [insertAll_closed]
  simp only [List.map_nil, List.nil_append]
  rw [freshPart_eq_self key [] l (by simp) hnd]

theorem mergeByKey_closed (prev incoming : List α)
    (hnd : (prev.map key).Nodup) :
    mergeByKey key prev incoming
      = prev.map (fun x => (lastVal key incoming (key x)).getD x)
        ++ freshPart key (prev.map key) incoming := by
  unfold mergeByKey
  rw [insertAll_rebuild key prev hnd, insertAll_closed]
  have hkeys : (prev.map fun x => (key x, x)).map Prod.fst = prev.map key := by
    rw [List.map_map]; rfl
  rw [hkeys, List.map_append, List.map_map, List.map_map, List.map_map]
  congr 1
  exact List.map_id _

theorem mergeByKey_keys_nodup (prev incoming : List α) :
    ((mergeByKey key prev incoming).map key).Nodup := by
  unfold mergeByKey
  have hco : ∀ p ∈ insertAll key (insertAll key [] prev) incoming,
      p.1 = key p.2 := by
    apply insertAll_coherent
    apply insertAll_coherent
    simp
  have hrw : (insertAll key (insertAll key [] prev) incoming).map
        (fun p => key p.2)
      = (insertAll key (insertAll key [] prev) incoming).map Prod.fst := by
    apply List.map_congr_left
    intro p hp
    exact (hco p hp).symm
  rw [List.map_map]
  show ((insertAll key (insertAll key [] prev) incoming).map
    (fun p => key p.2)).Nodup
  rw [hrw]
  apply insertAll_keys_nodup
  apply insertAll_keys_nodup
  simp

theorem lastVal_getD_of_mem_merge (prev incoming : List α) (x : α)
    (hx : x ∈ mergeByKey key prev incoming) :
    (lastVal key incoming (key x)).getD x = x := by
  unfold mergeByKey at hx
  obtain ⟨p, hp, hpx⟩ := List.mem_map.mp hx
  rw [insertAll_closed] at hp
  rcases List.mem_append.mp hp with hmain | hfresh
  · obtain ⟨q, hqmem, hq⟩ := List.mem_map.mp hmain
    have hx2 : x = (lastVal key incoming q.1).getD q.2 := by
      rw [← hpx, ← hq]
    cases hlv : lastVal key incoming q.1 with
    | none =>
      rw [hlv] at hx2
      simp only [Option.getD_none] at hx2
      have hco : ∀ p' ∈ insertAll key [] prev, p'.1 = key p'.2 :=
        insertAll_coherent key [] prev (by simp)
      have hkx : key x = q.1 := by
        rw [hx2]
        exact (hco q hqmem).symm
      rw [hkx, hlv]
      rfl
    | some y =>
      rw [hlv] at hx2
      simp only [Option.getD_some] at hx2
      have hky : key y = q.1 := key_of_lastVal key incoming q.1 y hlv
      rw [hx2, hky, hlv]
      rfl
  · obtain ⟨v, hv, hvp⟩ := List.mem_map.mp hfresh
    have hxv : x = v := by rw [← hpx, ← hvp]
    rw [hxv, lastVal_of_mem_freshPart key _ incoming v hv]
    rfl

theorem key_mem_mergeByKey (prev incoming : List α) :
    ∀ x ∈ incoming, key x ∈ (mergeByKey key prev incoming).map key := by
  intro x hx
  unfold mergeByKey
  rw [List.map_map]
  have hco : ∀ p ∈ insertAll key (insertAll key [] prev) incoming,
      p.1 = key p.2 :=
    insertAll_coherent key _ incoming
      (insertAll_coherent key [] prev (by simp))
  have hrw : (insertAll key (insertAll key [] prev) incoming).map
        (key ∘ Prod.snd)
      = (insertAll key (insertAll key [] prev) incoming).map Prod.fst := by
    apply List.map_congr_left
    intro p hp
    exact (hco p hp).symm
  rw [hrw]
  exact key_mem_insertAll_keys key _ incoming x hx

/-- Re-merging the same incoming selection is a no-op: the second merge only
replaces values in place with the values they already hold. -/
theorem mergeByKey_idem (prev incoming : List α) :
    mergeByKey key (mergeByKey key prev incoming) incoming
      = mergeByKey key prev incoming := by
  have hnd : ((mergeByKey key prev incoming).map key).Nodup :=
    mergeByKey_keys_nodup key prev incoming
  rw [mergeByKey_closed key (mergeByKey key prev incoming) incoming hnd]
  rw [freshPart_eq_nil key _ incoming (key_mem_mergeByKey key prev incoming),
    List.append_nil]
  conv_rhs => rw [← List.map_id (mergeByKey key prev incoming)]
  apply List.map_congr_left
  intro x hx
  exact lastVal_getD_of_mem_merge key prev incoming x hx

theorem find?_replace_self (m : List (κ × α)) (k : κ) (v : α)
    (h : k ∈ m.map Prod.fst) :
    (m.map (fun p => if p.1 = k then (k, v) else p)).find?
      (fun p => decide (p.1 = k)) = some (k, v) := by
  induction m with
  | nil => simp at h
  | cons q m ih =>
    by_cases hq : q.1 = k
    · simp [List.find?, hq]
    · have hm : k ∈ m.map Prod.fst := by
        simp only [List.map_cons, List.mem_cons] at h
        rcases h with h1 | h2
        · exact absurd h1.symm hq
        · exact h2
      simp only [List.map_cons, List.find?, if_neg hq]
      rw [decide_eq_false hq]
      exact ih hm

theorem recordGet_mapSet_self (m : List (κ × α)) (k : κ) (v : α) :
    recordGet (mapSet m k v) k = some v := by
  by_cases h : k ∈ m.map Prod.fst
  · rw [mapSet_of_mem _ _ _ h]
    unfold recordGet
    rw [find?_replace_self m k v h]
    rfl
  · rw [mapSet_of_not_mem _ _ _ h]
    unfold recordGet
    rw [List.find?_append]
    have hnone : m.find? (fun p => decide (p.1 = k)) = none := by
      rw [List.find?_eq_none]
      intro p hp
      simp only [decide_eq_true_eq]
      intro hpk
      exact h (List.mem_map.mpr ⟨p, hp, hpk⟩)
    rw [hnone]
    simp [List.find?]

theorem find?_replace_ne (m : List (κ × α)) (k k' : κ) (v : α)
    (hne : k' ≠ k) :
    (m.map (fun p => if p.1 = k then (k, v) else p)).find?
        (fun p => decide (p.1 = k'))
      = m.find? (fun p => decide (p.1 = k')) := by
  induction m with
  | nil => rfl
  | cons q m ih =>
    by_cases hq : q.1 = k
    · simp only [List.map_cons, List.find?, if_pos hq]
      rw [decide_eq_false (fun hc => hne hc.symm),
        decide_eq_false (fun hc => hne (hq ▸ hc).symm)]
      exact ih
    · simp only [List.map_cons, List.find?, if_neg hq]
      cases hd : decide (q.1 = k') with
      | true => rfl
      | false => exact ih

theorem recordGet_mapSet_ne (m : List (κ × α)) (k k' : κ) (v : α)
    (hne : k' ≠ k) :
    recordGet (mapSet m k v) k' = recordGet m k' := by
  by_cases h : k ∈ m.map Prod.fst
  · rw [mapSet_of_mem _ _ _ h]
    unfold recordGet
    rw [find?_replace_ne m k k' v hne]
  · rw [mapSet_of_not_mem _ _ _ h]
    unfold recordGet
    rw [List.find?_append]
    have hsingle : ([(k, v)] : List (κ × α)).find?
        (fun p => decide (p.1 = k')) = none := by
      simp [List.find?, decide_eq_false (fun hc : k = k' => hne hc.symm)]
    rw [hsingle, Option.or_none]

end KeyedMapLemmas

/-! ## Helper lemmas about the embedded operations -/

theorem enumFrom_fst_ge {β : Type} (l : List β) (n : Nat) :
    ∀ p ∈ l.enumFrom n, n ≤ p.1 := by
  induction l generalizing n with
  | nil => simp [List.enumFrom]
  | cons x xs ih =>
    intro p hp
    simp only [List.enumFrom, List.mem_cons] at hp
    rcases hp with h1 | h2
    · rw [h1]
    · exact Nat.le_of_succ_le (ih (n + 1) p h2)

theorem removeAt_spec_aux {β : Type} (l : List β) (n i : Nat) :
    ((l.enumFrom n).filter (fun p => decide (p.1 ≠ n + i))).map Prod.snd
      = l.take i ++ l.drop (i + 1) := by
  induction l generalizing n i with
  | nil => simp [List.enumFrom]
  | cons x xs ih =>
    cases i with
    | zero =>
      have hall : (List.enumFrom (n + 1) xs).filter
            (fun p => decide (p.1 ≠ n + 0))
          = List.enumFrom (n + 1) xs := by
        apply List.filter_eq_self.mpr
        intro p hp
        have hge := enumFrom_fst_ge xs (n + 1) p hp
        simp only [decide_eq_true_eq]
        omega
      have h0 : (decide (n ≠ n + 0)) = false := by simp
      simp only [List.enumFrom, List.filter_cons]
      rw [h0, if_neg (by simp), hall, List.enumFrom_map_snd]
      simp
    | succ j =>
      have h1 : (decide (n ≠ n + (j + 1))) = true := by
        simp only [decide_eq_true_eq]
        omega
      simp only [List.enumFrom, List.filter_cons]
      rw [h1, if_pos rfl]
      simp only [List.map_cons]
      have heq : n + (j + 1) = (n + 1) + j := by omega
      rw [heq, ih (n + 1) j]
      simp

theorem removeFileAt_take_drop (files : List FileRef) (i : Nat) :
    removeFileAt files i = files.take i ++ files.drop (i + 1) := by
  have h := removeAt_spec_aux files 0 i
  simp only [Nat.zero_add] at h
  simpa [removeFileAt, List.enum] using h

theorem removeFileAt_out_of_range (files : List FileRef) (i : Nat)
    (h : files.length ≤ i) : removeFileAt files i = files := by
  rw [removeFileAt_take_drop, List.take_of_length_le h,
    List.drop_eq_nil_of_le (by omega), List.append_nil]

theorem bucket_setUploadStateFor_self (s : AppState) (tid : String)
    (upd : ThreadUploadState → ThreadUploadState) :
    bucket (setUploadStateFor tid upd s) tid = upd (bucket s tid) := by
  unfold bucket setUploadStateFor
  rw [recordGet_mapSet_self]
  rfl

theorem recordGet_setUploadStateFor_ne (s : AppState) (tid B : String)
    (upd : ThreadUploadState → ThreadUploadState) (h : B ≠ tid) :
    recordGet (setUploadStateFor tid upd s).threadUploads B
      = recordGet s.threadUploads B := by
  unfold setUploadStateFor
  exact recordGet_mapSet_ne _ _ _ _ h

/-! ## Claims -/

/-- C9: file merging is keyed by (name, byte-size, last-modified); merging a
file whose key is already present does not grow the set (the later entry
replaces the earlier one), so merging the same file twice yields a file set
of size 1, and merging any selection twice equals merging it once. -/
theorem C9_dedupe_idempotence :
    (∀ (cur : List FileRef) (f : FileRef), (cur.map fileKey).Nodup →
        fileKey f ∈ cur.map fileKey → (mergeFiles cur [f]).length = cur.length)
  ∧ (∀ f g : FileRef, fileKey f = fileKey g →
        mergeFiles (mergeFiles [] [f]) [g] = [g])
  ∧ (∀ prev incoming : List FileRef,
        mergeFiles (mergeFiles prev incoming) incoming
          = mergeFiles prev incoming) := by
  refine ⟨?_, ?_, ?_⟩
  · intro cur f hnd hmem
    unfold mergeFiles
    rw [mergeByKey_closed fileKey cur [f] hnd]
    rw [freshPart_eq_nil fileKey _ [f] ?_]
    · simp
    · intro x hx
      rw [List.mem_singleton.mp hx]
      exact hmem
  · intro f g hfg
    unfold mergeFiles
    have h1 : mergeByKey fileKey [] [f] = [f] := by
      rw [mergeByKey_closed fileKey [] [f] (by simp)]
      simp [freshPart, lastVal]
    rw [h1, mergeByKey_closed fileKey [f] [g] (by simp)]
    have hlv : lastVal fileKey [g] (fileKey f) = some g := by
      simp [lastVal, hfg]
    have hfp : freshPart fileKey [fileKey f] [g] = [] := by
      apply freshPart_eq_nil
      intro x hx
      rw [List.mem_singleton.mp hx]
      simp [hfg]
    simp [hlv, hfp]
  · intro prev incoming
    exact mergeByKey_idem fileKey prev incoming

/-- C9 witness: the theorem applied at concrete files that share the
name/size/lastModified key. -/
theorem C9_dedupe_idempotence_witness :
    (mergeFiles [⟨"a.pdf", 10, 5, "x"⟩] [⟨"a.pdf", 10, 5, "x"⟩]).length = 1
  ∧ mergeFiles (mergeFiles [] [⟨"a.pdf", 10, 5, "x"⟩]) [⟨"a.pdf", 10, 5, "y"⟩]
      = [⟨"a.pdf", 10, 5, "y"⟩] :=
  ⟨C9_dedupe_idempotence.1 [⟨"a.pdf", 10, 5, "x"⟩] ⟨"a.pdf", 10, 5, "x"⟩
      (by decide) (by decide),
    C9_dedupe_idempotence.2.1 _ _ (by decide)⟩

/-- C10: a merge keeps each already-present key at its original position
(the value is replaced by the last incoming entry for that key) and appends
genuinely new keys at the end in incoming first-occurrence order, so
positional removal addresses the element the user currently sees at that
index: `removeFileAt` removes exactly position `i` of the current view and
leaves the list unchanged when `i` is out of range. -/
theorem C10_merge_positions_removeFileAt :
    (∀ prev incoming : List FileRef, (prev.map fileKey).Nodup →
        mergeFiles prev incoming
          = prev.map (fun f => (lastVal fileKey incoming (fileKey f)).getD f)
            ++ freshPart fileKey (prev.map fileKey) incoming)
  ∧ (∀ prev incoming : List FileRef, (prev.map fileKey).Nodup →
        (mergeFiles prev incoming).map fileKey
          = prev.map fileKey
            ++ (freshPart fileKey (prev.map fileKey) incoming).map fileKey)
  ∧ (∀ (files : List FileRef) (i : Nat),
        removeFileAt files i = files.take i ++ files.drop (i + 1))
  ∧ (∀ (files : List FileRef) (i : Nat), files.length ≤ i →
        removeFileAt files i = files) := by
  refine ⟨?_, ?_, ?_, ?_⟩
  · intro prev incoming hnd
    exact mergeByKey_closed fileKey prev incoming hnd
  · intro prev incoming hnd
    unfold mergeFiles
    rw [mergeByKey_closed fileKey prev incoming hnd, List.map_append,
      List.map_map]
    congr 1
    apply List.map_congr_left
    intro f _
    simp only [Function.comp_apply]
    cases hlv : lastVal fileKey incoming (fileKey f) with
    | none => simp
    | some y => simpa using key_of_lastVal fileKey incoming (fileKey f) y hlv
  · intro files i
    exact removeFileAt_take_drop files i
  · intro files i h
    exact removeFileAt_out_of_range files i h

/-- C10 witness: the theorem applied at a concrete one-file list. -/
theorem C10_merge_positions_removeFileAt_witness :
    removeFileAt [(⟨"a.pdf", 1, 1, "x"⟩ : FileRef)] 5
        = [(⟨"a.pdf", 1, 1, "x"⟩ : FileRef)]
  ∧ mergeFiles [(⟨"a.pdf", 1, 1, "x"⟩ : FileRef)] []
      = [(⟨"a.pdf", 1, 1, "x"⟩ : FileRef)].map
          (fun f => (lastVal fileKey [] (fileKey f)).getD f)
        ++ freshPart fileKey
            ([(⟨"a.pdf", 1, 1, "x"⟩ : FileRef)].map fileKey) [] :=
  ⟨C10_merge_positions_removeFileAt.2.2.2 _ 5 (by decide),
    C10_merge_positions_removeFileAt.1 _ [] (by decide)⟩

/-- C2: the upload upsert inserts each returned result or replaces the
existing entry with the same document_id: the result set never contains two
entries with the same document_id, an overwritten entry reflects the latest
values while all other entries are preserved in place, and uploading d1 and
then a batch with d1 (updated) and d2 yields exactly the entries d1
(updated) and d2. -/
theorem C2_upsert_correctness :
    (∀ prev batch : List AnalysisResult,
        ((upsertResults prev batch).map AnalysisResult.document_id).Nodup)
  ∧ (∀ prev batch : List AnalysisResult,
        (prev.map AnalysisResult.document_id).Nodup →
        upsertResults prev batch
          = prev.map (fun r =>
              (lastVal AnalysisResult.document_id batch r.document_id).getD r)
            ++ freshPart AnalysisResult.document_id
                (prev.map AnalysisResult.document_id) batch)
  ∧ (∀ a a2 b : AnalysisResult, a2.document_id = a.document_id →
        b.document_id ≠ a.document_id →
        upsertResults (upsertResults [] [a]) [a2, b] = [a2, b]) := by
  refine ⟨?_, ?_, ?_⟩
  · intro prev batch
    exact mergeByKey_keys_nodup AnalysisResult.document_id prev batch
  · intro prev batch hnd
    exact mergeByKey_closed AnalysisResult.document_id prev batch hnd
  · intro a a2 b h2 hb
    unfold upsertResults
    have h1 : mergeByKey AnalysisResult.document_id [] [a] = [a] := by
      rw [mergeByKey_closed AnalysisResult.document_id [] [a] (by simp)]
      simp [freshPart, lastVal]
    rw [h1, mergeByKey_closed AnalysisResult.document_id [a] [a2, b] (by simp)]
    have hlv : lastVal AnalysisResult.document_id [a2, b] a.document_id
        = some a2 := by
      simp [lastVal, hb, h2]
    have hfp : freshPart AnalysisResult.document_id [a.document_id] [a2, b]
        = [b] := by
      simp [freshPart, lastVal, h2, hb]
    simp [hlv, hfp]

/-- C2 witness: the spec's own example, d1 then d1 (risk_score 9) plus d2. -/
theorem C2_upsert_correctness_witness :
    upsertResults (upsertResults [] [⟨"d1", "f1", "t", ⟨[]⟩, 1, []⟩])
        [⟨"d1", "f1", "t", ⟨[]⟩, 9, []⟩, ⟨"d2", "f2", "t", ⟨[]⟩, 2, []⟩]
      = [⟨"d1", "f1", "t", ⟨[]⟩, 9, []⟩, ⟨"d2", "f2", "t", ⟨[]⟩, 2, []⟩] :=
  C2_upsert_correctness.2.2 _ _ _ (by decide) (by decide)

/-- C1: an upload submitted while thread A is active writes only into
bucket A. The submit phase and both resolution continuations (which carry
the submit-time thread id A in their closure) leave every other thread B's
bucket unchanged; the success continuation merges the response into bucket
A and sets its primary to the head of the response batch; and both
continuations are insensitive to the active-thread selection at resolution
time, so switching to B before the response arrives changes nothing but the
`currentThreadId` field itself. -/
theorem C1_thread_isolation (s : AppState) (A B : String)
    (resp : List AnalysisResult) (detail : Option String)
    (hcur : s.currentThreadId = some A) (hBA : B ≠ A) :
    recordGet (handleUploadSubmit s).1.threadUploads B
      = recordGet s.threadUploads B
  ∧ recordGet (handleUploadSuccess A resp s).threadUploads B
      = recordGet s.threadUploads B
  ∧ recordGet (handleUploadFailure A detail s).threadUploads B
      = recordGet s.threadUploads B
  ∧ (bucket (handleUploadSuccess A resp s) A).results
      = upsertResults (bucket s A).results resp
  ∧ (bucket (handleUploadSuccess A resp s) A).result = resp.head?
  ∧ (∀ c : Option String,
        handleUploadSuccess A resp { s with currentThreadId := c }
          = { handleUploadSuccess A resp s with currentThreadId := c })
  ∧ (∀ c : Option String,
        handleUploadFailure A detail { s with currentThreadId := c }
          = { handleUploadFailure A detail s with currentThreadId := c }) := by
  refine ⟨?_, ?_, ?_, ?_, ?_, ?_, ?_⟩
  · simp only [handleUploadSubmit, hcur]
    by_cases hf : (bucket s A).files.length = 0
    · rw [if_pos hf]
      exact recordGet_setUploadStateFor_ne s A B _ hBA
    · rw [if_neg hf]
      exact recordGet_setUploadStateFor_ne s A B _ hBA
  · simp only [handleUploadSuccess]
    rw [recordGet_setUploadStateFor_ne _ _ _ _ hBA,
      recordGet_setUploadStateFor_ne _ _ _ _ hBA]
  · simp only [handleUploadFailure]
    rw [recordGet_setUploadStateFor_ne _ _ _ _ hBA,
      recordGet_setUploadStateFor_ne _ _ _ _ hBA]
  · simp only [handleUploadSuccess]
    rw [bucket_setUploadStateFor_self, bucket_setUploadStateFor_self]
  · simp only [handleUploadSuccess]
    rw [bucket_setUploadStateFor_self, bucket_setUploadStateFor_self]
  · intro c
    rfl
  · intro c
    rfl

/-- C1 witness: a concrete upload for thread A resolving against a state
whose active thread differs leaves bucket B unchanged. -/
theorem C1_thread_isolation_witness :
    recordGet (handleUploadSuccess "A" []
        (⟨[], [], [], some "A", []⟩ : AppState)).threadUploads "B"
      = recordGet (⟨[], [], [], some "A", []⟩ : AppState).threadUploads "B" :=
  (C1_thread_isolation ⟨[], [], [], some "A", []⟩ "A" "B" [] none rfl
    (by decide)).2.1

/-- C7: submitting an upload with an empty file selection makes no network
call, sets only the thread's error field to the local validation message,
and leaves everything else (the bucket's files, loading, results, primary,
every other bucket, and the rest of the state) unchanged. -/
theorem C7_empty_submit (s : AppState) (tid : String)
    (hcur : s.currentThreadId = some tid)
    (hempty : (bucket s tid).files = []) :
    (handleUploadSubmit s).2 = none
  ∧ (bucket (handleUploadSubmit s).1 tid).error = uploadValidationError
  ∧ (bucket (handleUploadSubmit s).1 tid).files = (bucket s tid).files
  ∧ (bucket (handleUploadSubmit s).1 tid).loading = (bucket s tid).loading
  ∧ (bucket (handleUploadSubmit s).1 tid).results = (bucket s tid).results
  ∧ (bucket (handleUploadSubmit s).1 tid).result = (bucket s tid).result
  ∧ (∀ B, B ≠ tid →
        recordGet (handleUploadSubmit s).1.threadUploads B
          = recordGet s.threadUploads B)
  ∧ (handleUploadSubmit s).1.threadView = s.threadView
  ∧ (handleUploadSubmit s).1.threads = s.threads
  ∧ (handleUploadSubmit s).1.messages = s.messages
  ∧ (handleUploadSubmit s).1.currentThreadId = s.currentThreadId := by
  have hlen : (bucket s tid).files.length = 0 := by rw [hempty]; rfl
  have hsub : handleUploadSubmit s
      = (setUploadStateFor tid
          (fun prev => { prev with error := uploadValidationError }) s, none) := by
    simp only [handleUploadSubmit, hcur]
    rw [if_pos hlen]
  refine ⟨?_, ?_, ?_, ?_, ?_, ?_, ?_, ?_, ?_, ?_, ?_⟩
  · rw [hsub]
  · rw [hsub]
    show (bucket (setUploadStateFor tid _ s) tid).error = _
    rw [bucket_setUploadStateFor_self]
  · rw [hsub]
    show (bucket (setUploadStateFor tid _ s) tid).files = _
    rw [bucket_setUploadStateFor_self]
  · rw [hsub]
    show (bucket (setUploadStateFor tid _ s) tid).loading = _
    rw [bucket_setUploadStateFor_self]
  · rw [hsub]
    show (bucket (setUploadStateFor tid _ s) tid).results = _
    rw [bucket_setUploadStateFor_self]
  · rw [hsub]
    show (bucket (setUploadStateFor tid _ s) tid).result = _
    rw [bucket_setUploadStateFor_self]
  · intro B hB
    rw [hsub]
    exact recordGet_setUploadStateFor_ne s tid B _ hB
  · rw [hsub]
    rfl
  · rw [hsub]
    rfl
  · rw [hsub]
    rfl
  · rw [hsub]
    rfl

/-- C7 witness: submitting with no files and no bucket entry for the active
thread issues no network call. -/
theorem C7_empty_submit_witness :
    (handleUploadSubmit (⟨[], [], [], some "T", []⟩ : AppState)).2 = none :=
  (C7_empty_submit ⟨[], [], [], some "T", []⟩ "T" rfl rfl).1

/-- C8: when an upload attempt fails, the thread's error is the server
detail when a non-empty one is present and the generic fallback otherwise,
loading returns to false, and the bucket's results, primary and files are
exactly as before the attempt; other buckets are untouched. -/
theorem C8_upload_failure (s : AppState) (tid : String) (detail : Option String)
    (hcur : s.currentThreadId = some tid)
    (hfiles : (bucket s tid).files.length ≠ 0) :
    (∀ d, detail = some d → d ≠ "" →
        (bucket (handleUploadFailure tid detail (handleUploadSubmit s).1) tid).error
          = d)
  ∧ (detail = none →
        (bucket (handleUploadFailure tid detail (handleUploadSubmit s).1) tid).error
          = "Upload failed")
  ∧ (bucket (handleUploadFailure tid detail (handleUploadSubmit s).1) tid).loading
      = false
  ∧ (bucket (handleUploadFailure tid detail (handleUploadSubmit s).1) tid).results
      = (bucket s tid).results
  ∧ (bucket (handleUploadFailure tid detail (handleUploadSubmit s).1) tid).result
      = (bucket s tid).result
  ∧ (bucket (handleUploadFailure tid detail (handleUploadSubmit s).1) tid).files
      = (bucket s tid).files
  ∧ (∀ B, B ≠ tid →
        recordGet (handleUploadFailure tid detail (handleUploadSubmit s).1).threadUploads B
          = recordGet s.threadUploads B) := by
  have hsub : (handleUploadSubmit s).1
      = setUploadStateFor tid
          (fun prev => { prev with loading := true, error := "" }) s := by
    simp only [handleUploadSubmit, hcur]
    rw [if_neg hfiles]
  have hb : bucket (handleUploadFailure tid detail (handleUploadSubmit s).1) tid
      = { bucket s tid with
            loading := false,
            error := jsOrString detail "Upload failed" } := by
    simp only [handleUploadFailure]
    rw [bucket_setUploadStateFor_self, bucket_setUploadStateFor_self, hsub,
      bucket_setUploadStateFor_self]
  refine ⟨?_, ?_, ?_, ?_, ?_, ?_, ?_⟩
  · intro d hd hne
    rw [hb, hd]
    simp [jsOrString, hne]
  · intro hd
    rw [hb, hd]
    rfl
  · rw [hb]
  · rw [hb]
  · rw [hb]
  · rw [hb]
  · intro B hB
    simp only [handleUploadFailure]
    rw [recordGet_setUploadStateFor_ne _ _ _ _ hB,
      recordGet_setUploadStateFor_ne _ _ _ _ hB, hsub,
      recordGet_setUploadStateFor_ne _ _ _ _ hB]

/-- C8 witness: a failed upload with no server detail reports the generic
fallback for a concrete one-file thread. -/
theorem C8_upload_failure_witness :
    (bucket (handleUploadFailure "T" none
        (handleUploadSubmit
          (⟨[("T", ⟨[⟨"a.pdf", 1, 1, "x"⟩], false, "", [], none⟩)],
            [], [], some "T", []⟩ : AppState)).1) "T").error
      = "Upload failed" :=
  (C8_upload_failure
    ⟨[("T", ⟨[⟨"a.pdf", 1, 1, "x"⟩], false, "", [], none⟩)], [], [],
      some "T", []⟩ "T" none rfl (by decide)).2.1 rfl

/-- C6: selecting a thread resets its ViewMode to upload, sets it active,
fires the transcript and document fetches, and keeps the bucket content;
the resolving document fetch replaces the bucket's results and primary
wholesale with the mapped backend documents (no merge with prior results:
the outcome is independent of the previous state), with the primary the
first fetched document or none when the fetch is empty. -/
theorem C6_thread_selection (s : AppState) (tid : String) (docs : List RawDoc) :
    recordGet (handleThreadSelect tid s).1.threadView tid
      = some ThreadViewMode.upload
  ∧ (handleThreadSelect tid s).1.currentThreadId = some tid
  ∧ (handleThreadSelect tid s).2
      = [ApiCall.getThreadMessages tid, ApiCall.getThreadDocuments tid]
  ∧ bucket (handleThreadSelect tid s).1 tid = bucket s tid
  ∧ (bucket (loadThreadDocumentsSuccess tid docs s) tid).results
      = docs.map mapDoc
  ∧ (bucket (loadThreadDocumentsSuccess tid docs s) tid).result
      = (docs.map mapDoc).head?
  ∧ (docs = [] →
        (bucket (loadThreadDocumentsSuccess tid docs s) tid).result = none)
  ∧ (∀ s' : AppState,
        (bucket (loadThreadDocumentsSuccess tid docs s') tid).results
          = (bucket (loadThreadDocumentsSuccess tid docs s) tid).results) := by
  refine ⟨?_, rfl, rfl, ?_, ?_, ?_, ?_, ?_⟩
  · simp only [handleThreadSelect]
    rw [recordGet_mapSet_self]
  · simp only [handleThreadSelect, bucket]
    rw [recordGet_mapSet_self]
    rfl
  · simp only [loadThreadDocumentsSuccess, bucket]
    rw [recordGet_mapSet_self]
    rfl
  · simp only [loadThreadDocumentsSuccess, bucket]
    rw [recordGet_mapSet_self]
    rfl
  · intro h
    subst h
    simp only [loadThreadDocumentsSuccess, bucket]
    rw [recordGet_mapSet_self]
    rfl
  · intro s'
    simp only [loadThreadDocumentsSuccess, bucket]
    rw [recordGet_mapSet_self, recordGet_mapSet_self]
    rfl

/-- C6 witness: an empty document fetch leaves the primary empty. -/
theorem C6_thread_selection_witness :
    (bucket (loadThreadDocumentsSuccess "T" []
        (⟨[], [], [], none, []⟩ : AppState)) "T").result = none :=
  (C6_thread_selection ⟨[], [], [], none, []⟩ "T" []).2.2.2.2.2.2.1 rfl

/-- C5 counterexample: a confirmed delete of the active thread T only issues
the DELETE and refreshes the cached thread list; T's local UploadState and
ViewMode entries survive and T stays selected, so the claimed local cascade
(bucket dropped, active selection cleared) does not happen. -/
theorem C5_delete_counterexample :
    recordGet ((handleDeleteThreadConfirmed "T" []
        (⟨[("T", getDefaultUploadState)], [("T", ThreadViewMode.upload)],
          [⟨1, "T", "t", "", "", 0⟩], some "T", []⟩ : AppState)).2).threadUploads
        "T"
      = some getDefaultUploadState
  ∧ ((handleDeleteThreadConfirmed "T" []
        (⟨[("T", getDefaultUploadState)], [("T", ThreadViewMode.upload)],
          [⟨1, "T", "t", "", "", 0⟩], some "T", []⟩ : AppState)).2).currentThreadId
      = some "T"
  ∧ recordGet ((handleDeleteThreadConfirmed "T" []
        (⟨[("T", getDefaultUploadState)], [("T", ThreadViewMode.upload)],
          [⟨1, "T", "t", "", "", 0⟩], some "T", []⟩ : AppState)).2).threadView "T"
      = some ThreadViewMode.upload := by
  refine ⟨by decide, by decide, by decide⟩

/-- C5 amended: a confirmed delete of thread T issues the backend DELETE and
refreshes the cached thread list from the server (so T disappears from
listings once the server no longer returns it), but it leaves T's local
UploadState, ViewMode and transcript entries in place and does not change
the active selection, even when T was the active thread. -/
theorem C5_delete_amended (s : AppState) (tid : String)
    (serverThreads : List Thread)
    (h : tid ∉ serverThreads.map Thread.thread_id) :
    (handleDeleteThreadConfirmed tid serverThreads s).1
      = [ApiCall.deleteThread tid, ApiCall.getThreads]
  ∧ (handleDeleteThreadConfirmed tid serverThreads s).2.threads = serverThreads
  ∧ tid ∉ ((handleDeleteThreadConfirmed tid serverThreads s).2.threads.map
      Thread.thread_id)
  ∧ (handleDeleteThreadConfirmed tid serverThreads s).2.threadUploads
      = s.threadUploads
  ∧ (handleDeleteThreadConfirmed tid serverThreads s).2.threadView
      = s.threadView
  ∧ (handleDeleteThreadConfirmed tid serverThreads s).2.messages = s.messages
  ∧ (handleDeleteThreadConfirmed tid serverThreads s).2.currentThreadId
      = s.currentThreadId :=
  ⟨rfl, rfl, h, rfl, rfl, rfl, rfl⟩

/-- C5 amended witness: deleting against an empty server list leaves an
empty cached list. -/
theorem C5_delete_amended_witness :
    (handleDeleteThreadConfirmed "T" []
        (⟨[], [], [], none, []⟩ : AppState)).2.threads = [] :=
  (C5_delete_amended ⟨[], [], [], none, []⟩ "T" [] (by decide)).2.1

/-- C3 counterexample: with zero known documents, no primary and no local
files, asking a question issues no request at all rather than a
multi-document request with an empty id list; and with zero known documents
but a primary still set, the question is routed to the single-document
endpoint with the primary's id instead of the multi-document endpoint. -/
theorem C3_routing_counterexample :
    handleChatRequests ⟨[], false, none, [], "", "q", "", false⟩ [] = []
  ∧ handleChatRequests ⟨[], false, none, [], "", "q", "", false⟩ []
      ≠ [ApiCall.chatMulti [] "q"]
  ∧ handleChatRequests
        ⟨[], false, some ⟨"d1", "f", "t", ⟨[]⟩, 1, []⟩, [], "", "q", "", false⟩
        []
      = [ApiCall.chatSingle "d1" "q"] := by
  refine ⟨by decide, by decide, by decide⟩

/-- C3 amended: for a non-empty question, the code routes as follows: with
at most one known result and a primary set, to the single-document endpoint
with the primary's id; with two or more known results, to the
multi-document endpoint with the full id list; with no known results, no
primary and local files selected, an upload is issued first and the
multi-document request carries the uploaded ids; with no known results, no
primary and no files, no request is made; with exactly one known result but
no primary, to the multi-document endpoint. -/
theorem C3_routing_amended (cs : ChatState)
    (uploadResults : List AnalysisResult) (hq : cs.chatQuestion ≠ "") :
    (∀ r, cs.result = some r → cs.results.length ≤ 1 →
        handleChatRequests cs uploadResults
          = [ApiCall.chatSingle r.document_id cs.chatQuestion])
  ∧ (2 ≤ cs.results.length →
        handleChatRequests cs uploadResults
          = [ApiCall.chatMulti (cs.results.map AnalysisResult.document_id)
              cs.chatQuestion])
  ∧ (cs.result = none → cs.results = [] → cs.files ≠ [] →
        handleChatRequests cs uploadResults
          = [ApiCall.uploadMultiple cs.files none,
              ApiCall.chatMulti (uploadResults.map AnalysisResult.document_id)
                cs.chatQuestion])
  ∧ (cs.result = none → cs.results = [] → cs.files = [] →
        handleChatRequests cs uploadResults = [])
  ∧ (cs.result = none → cs.results.length = 1 →
        handleChatRequests cs uploadResults
          = [ApiCall.chatMulti (cs.results.map AnalysisResult.document_id)
              cs.chatQuestion]) := by
  obtain ⟨fls, ld, res, rs, er, q, ans, cl⟩ := cs
  simp only at hq
  refine ⟨?_, ?_, ?_, ?_, ?_⟩
  · intro r hr hlen
    simp only at hr hlen
    subst hr
    simp only [handleChatRequests]
    rw [if_neg (by
      rintro (hq' | ⟨_, hnone, _⟩)
      · exact hq hq'
      · exact Option.some_ne_none r hnone)]
    rw [dif_pos ⟨hlen, rfl⟩]
    rfl
  · intro h2
    simp only at h2
    simp only [handleChatRequests]
    rw [if_neg (by
      rintro (hq' | ⟨h0, _, _⟩)
      · exact hq hq'
      · omega)]
    rw [dif_neg (by
      rintro ⟨hle, _⟩
      omega)]
    rw [if_neg (by
      rintro ⟨hi0, _⟩
      rw [List.length_map] at hi0
      omega)]
  · intro hres hrs hf
    simp only at hres hrs hf
    subst hres
    subst hrs
    simp only [handleChatRequests]
    rw [if_neg (by
      rintro (hq' | ⟨_, _, hfl⟩)
      · exact hq hq'
      · exact hf (List.length_eq_zero.mp hfl))]
    rw [dif_neg (by
      rintro ⟨_, hsome⟩
      simp at hsome)]
    rw [if_pos ⟨rfl, List.length_pos.mpr hf⟩]
    rfl
  · intro hres hrs hfl
    simp only at hres hrs hfl
    subst hres
    subst hrs
    subst hfl
    simp only [handleChatRequests]
    rw [if_pos (by simp)]
  · intro hres h1
    simp only at hres h1
    subst hres
    simp only [handleChatRequests]
    rw [if_neg (by
      rintro (hq' | ⟨h0, _, _⟩)
      · exact hq hq'
      · omega)]
    rw [dif_neg (by
      rintro ⟨_, hsome⟩
      simp at hsome)]
    rw [if_neg (by
      rintro ⟨hi0, _⟩
      rw [List.length_map] at hi0
      omega)]

/-- C3 amended witness: one known result whose primary is set routes to the
single-document endpoint. -/
theorem C3_routing_amended_witness :
    handleChatRequests
        ⟨[], false, some ⟨"d1", "f", "t", ⟨[]⟩, 1, []⟩,
          [⟨"d1", "f", "t", ⟨[]⟩, 1, []⟩], "", "q", "", false⟩ []
      = [ApiCall.chatSingle "d1" "q"] :=
  (C3_routing_amended _ [] (by decide)).1 _ rfl (by decide)

/-- C4: a chat failure with a 404 status while local files are selected
triggers exactly one re-upload call and exactly one retried chat call, the
retried request carrying the same `chatQuestion` text as the original
attempt; a failing retry surfaces the error with no further calls; and a
404 without local files, or any non-404 failure, surfaces the error with no
re-upload or retry at all. -/
theorem C4_recovery_bound (cs : ChatState) (detail : Option String)
    (freshResults : List AnalysisResult)
    (retry : Except (Option String) String) (hfiles : cs.files ≠ []) :
    countUploadCalls
        (handleChatOnError cs (some 404) detail (Except.ok freshResults) retry).1
      = 1
  ∧ countChatCalls
        (handleChatOnError cs (some 404) detail (Except.ok freshResults) retry).1
      = 1
  ∧ (handleChatOnError cs (some 404) detail (Except.ok freshResults) retry).1
      = [ApiCall.uploadMultiple cs.files none,
          ApiCall.chatMulti (freshResults.map AnalysisResult.document_id)
            cs.chatQuestion]
  ∧ (∀ d, retry = Except.error d →
        (handleChatOnError cs (some 404) detail (Except.ok freshResults)
            retry).2.chatAnswer
          = "Chat failed: " ++ jsOrString d "Unknown error")
  ∧ (∀ status, status ≠ some 404 → ∀ reup ret,
        (handleChatOnError cs status detail reup ret).1 = [])
  ∧ (∀ cs' : ChatState, cs'.files = [] → ∀ st detail' reup ret,
        (handleChatOnError cs' st detail' reup ret).1 = []) := by
  have hpos : 0 < cs.files.length := List.length_pos.mpr hfiles
  refine ⟨?_, ?_, ?_, ?_, ?_, ?_⟩
  · cases retry with
    | ok a =>
      simp [handleChatOnError, countUploadCalls, List.countP_cons, hpos]
    | error d =>
      simp [handleChatOnError, countUploadCalls, List.countP_cons, hpos]
  · cases retry with
    | ok a =>
      simp [handleChatOnError, countChatCalls, List.countP_cons, hpos]
    | error d =>
      simp [handleChatOnError, countChatCalls, List.countP_cons, hpos]
  · cases retry with
    | ok a =>
      simp [handleChatOnError, hpos]
    | error d =>
      simp [handleChatOnError, hpos]
  · intro d hd
    subst hd
    simp [handleChatOnError, hpos]
  · intro status hst reup ret
    simp [handleChatOnError, hst]
  · intro cs' hf st detail' reup ret
    simp [handleChatOnError, hf]

/-- C4 witness: a 404 with one local file and a failing retry still issues
exactly one re-upload. -/
theorem C4_recovery_bound_witness :
    countUploadCalls (handleChatOnError
        ⟨[⟨"a.pdf", 1, 1, "x"⟩], false, none, [], "", "q", "", false⟩
        (some 404) none (Except.ok []) (Except.error none)).1 = 1 :=
  (C4_recovery_bound ⟨[⟨"a.pdf", 1, 1, "x"⟩], false, none, [], "", "q", "", false⟩
    none [] (Except.error none) (by decide)).1

end FinanceBot
